import Mathlib

/-!
Verification of `Tools/actions_pr_changelog_to_discord.py` (Goob-Station).

Shallow embedding of the changelog-diff / Discord-delivery script:
* `diff_entries` — the entry-level delta engine,
* `count_change_types`, `render_change_type_summary` — per-file tallies,
* `changelog_entries_to_message_lines` — author-grouped detail lines,
* `send_message_lines` — 2000-char chunking of the line stream,
* `send_discord_webhook` — the per-chunk retry loop.

Python dicts are modelled as insertion-ordered association lists, Python
`Counter` lookups as `List.count`, and Python string slicing / stripping
as operations on the `List Char` underlying a `String`.
-/

set_option maxHeartbeats 1000000
set_option maxRecDepth 8000

namespace ChangelogScript

/-- The characters Python `str.strip()` removes (ASCII whitespace; the
Unicode space classes are irrelevant for this script's inputs). -/
def isPySpace (c : Char) : Bool :=
  c = ' ' ∨ c = '\t' ∨ c = '\n' ∨ c = '\r' ∨ c = '\x0b' ∨ c = '\x0c'

/-- Python `s.strip()`: drop leading and trailing whitespace. -/
def pyStrip (s : String) : String :=
  String.mk (((s.data.dropWhile isPySpace).reverse.dropWhile isPySpace).reverse)

/-- Python `s.rstrip()`: drop trailing whitespace. -/
def pyRstrip (s : String) : String :=
  String.mk ((s.data.reverse.dropWhile isPySpace).reverse)

/-- Python `s[:n]`: the first `n` characters (code points). -/
def strTake (s : String) (n : Nat) : String :=
  String.mk (s.data.take n)

/-- Python `str(x or d)` for an optional string `x`: `None` and the empty
string (both falsy) give the default `d`. -/
def strOr (x : Option String) (d : String) : String :=
  match x with
  | none => d
  | some s => if s = "" then d else s

/-- Python `dict.get(k)` on an association list (keys kept unique by
`dictSet`). -/
def dictGet {κ α : Type} [DecidableEq κ] (m : List (κ × α)) (k : κ) : Option α :=
  match m with
  | [] => none
  | (k', v) :: t => if k' = k then some v else dictGet t k

/-- Python `dict.get(k, d)`. -/
def dictGetD {κ α : Type} [DecidableEq κ] (m : List (κ × α)) (k : κ) (d : α) : α :=
  (dictGet m k).getD d

/-- Python `dict[k] = v`: replace the value at an existing key in place,
else append the new key at the end (insertion order preserved). -/
def dictSet {κ α : Type} [DecidableEq κ] (m : List (κ × α)) (k : κ) (v : α) : List (κ × α) :=
  match m with
  | [] => [(k, v)]
  | (k', v') :: t => if k' = k then (k, v) :: t else (k', v') :: dictSet t k v

/-- Python `OrderedDict.setdefault(k, []).append(v)`: append `v` to the list
at key `k`, creating the key at the end on first use. -/
def dictPush {κ α : Type} [DecidableEq κ] (m : List (κ × List α)) (k : κ) (v : α) :
    List (κ × List α) :=
  match m with
  | [] => [(k, [v])]
  | (k', vs) :: t => if k' = k then (k', vs ++ [v]) :: t else (k', vs) :: dictPush t k v

/-- One `{type, message}` item of an entry's `changes` list.  `none` models a
missing key (or a falsy value: `change.get("type") or ""` treats `None` and
`""` alike, which `strOr` reproduces). -/
structure ChangeItem where
  type : Option String
  message : Option String
deriving DecidableEq

/-- One changelog entry (a YAML mapping).  `id` is the optional identifier,
`changes = none` models a missing or non-list `changes` value (the script
skips those via `isinstance(changes, list)`), and `extra` stands for any
further keys of the mapping, which only matter for the structural equality
`old_entry != entry`. -/
structure ChangelogEntry where
  id : Option Int
  author : Option String
  changes : Option (List ChangeItem)
  extra : List (String × String)
deriving DecidableEq

/-- `[e.get("id") for e in entries if e.get("id") is not None]`. -/
def entryIds (entries : List ChangelogEntry) : List Int :=
  entries.filterMap (fun e => e.id)

/-- The dict `old_unique_by_id` of `diff_entries`: maps each id that is
unique in the old list to its (single) old entry. -/
def old_unique_by_id (old_entries : List ChangelogEntry) : List (Int × ChangelogEntry) :=
  old_entries.foldl
    (fun m e =>
      match e.id with
      | none => m
      | some i => if (entryIds old_entries).count i = 1 then dictSet m i e else m)
    []

/-- `diff_entries(old_entries, new_entries)`: compute
`(added, modified, removed)` by `id`.  `Counter.get(i, 0)` is `List.count`,
`set` membership is `List.contains`. -/
def diff_entries (old_entries new_entries : List ChangelogEntry) :
    List ChangelogEntry × List ChangelogEntry × List ChangelogEntry :=
  let old_ids := entryIds old_entries
  let new_ids := entryIds new_entries
  let added := new_entries.filter (fun e =>
    match e.id with
    | none => false
    | some i => !(old_ids.contains i))
  let modified := new_entries.filter (fun e =>
    match e.id with
    | none => false
    | some i =>
      if old_ids.count i ≠ 1 ∨ new_ids.count i ≠ 1 then false
      else
        match dictGet (old_unique_by_id old_entries) i with
        | none => false
        | some old_entry => old_entry ≠ e)
  let removed := old_entries.filter (fun e =>
    match e.id with
    | none => false
    | some i => !(new_ids.contains i))
  (added, modified, removed)

/-- `TYPES_TO_EMOJI`. -/
def TYPES_TO_EMOJI : List (String × String) :=
  [("Fix", "🐛"), ("Add", "🆕"), ("Remove", "❌"), ("Tweak", "⚒️")]

/-- `TYPES_TO_UA`. -/
def TYPES_TO_UA : List (String × String) :=
  [("Fix", "Виправлено"), ("Add", "Додано"), ("Remove", "Видалено"), ("Tweak", "Змінено")]

/-- `count_change_types(entries)`: tally `str(change.get("type") or "")`
over every change of every entry, skipping empty types, starting from the
four canonical types at 0. -/
def count_change_types (entries : List ChangelogEntry) : List (String × Nat) :=
  entries.foldl
    (fun counts e =>
      match e.changes with
      | none => counts
      | some changes =>
        changes.foldl
          (fun counts change =>
            let change_type := strOr change.type ""
            if change_type = "" then counts
            else dictSet counts change_type (dictGetD counts change_type 0 + 1))
          counts)
    [("Add", 0), ("Fix", 0), ("Remove", 0), ("Tweak", 0)]

/-- `render_change_type_summary(entries)`: `" • "`-joined `"{emoji} {count}"`
parts for the four canonical types, in the fixed order, nonzero counts only. -/
def render_change_type_summary (entries : List ChangelogEntry) : String :=
  let counts := count_change_types entries
  let parts := ["Add", "Fix", "Remove", "Tweak"].filterMap (fun change_type =>
    let count := dictGetD counts change_type 0
    if count = 0 then none
    else some (dictGetD TYPES_TO_EMOJI change_type "❓" ++ " " ++ toString count))
  String.intercalate " • " parts

/-- `DISCORD_SPLIT_LIMIT`. -/
def DISCORD_SPLIT_LIMIT : Nat := 2000

/-- The author key used for grouping: `str(entry.get("author") or "Невідомо")`. -/
def authorKey (e : ChangelogEntry) : String :=
  strOr e.author "Невідомо"

/-- The line built for one change item inside
`changelog_entries_to_message_lines`, `none` when the change is dropped
because its stripped message is empty. -/
def changeDetailLine (change : ChangeItem) : Option String :=
  let change_type := strOr change.type ""
  let emoji := dictGetD TYPES_TO_EMOJI change_type "❓"
  let label := dictGetD TYPES_TO_UA change_type (if change_type = "" then "Невідомо" else change_type)
  let message := pyStrip (strOr change.message "")
  if message = "" then none
  else
    let message :=
      if message.length > DISCORD_SPLIT_LIMIT then
        pyRstrip (strTake message (DISCORD_SPLIT_LIMIT - 100)) ++ " [...]"
      else message
    some ("• " ++ emoji ++ " " ++ label ++ ": " ++ message ++ "\n")

/-- The lines produced for one entry (its inner `for change in changes`
loop); a missing or non-list `changes` value yields nothing. -/
def entryDetailLines (e : ChangelogEntry) : List String :=
  match e.changes with
  | none => []
  | some changes => changes.filterMap changeDetailLine

/-- The `OrderedDict` `by_author` of `changelog_entries_to_message_lines`:
entries grouped by author key in first-appearance order. -/
def by_author (entries : List ChangelogEntry) : List (String × List ChangelogEntry) :=
  entries.foldl (fun m e => dictPush m (authorKey e) e) []

/-- `changelog_entries_to_message_lines(entries)`: build the `OrderedDict`
`by_author`, then emit each group's header and detail lines, with a `"\n"`
separator line before every group but the first. -/
def changelog_entries_to_message_lines (entries : List ChangelogEntry) : List String :=
  ((by_author entries).foldl
    (fun (st : List String × Bool) ag =>
      let message_lines := st.1
      let first := st.2
      let message_lines := if first then message_lines else message_lines ++ ["\n"]
      let message_lines := message_lines ++ ["**" ++ ag.1 ++ "**:\n"]
      let message_lines := message_lines ++ ag.2.flatMap entryDetailLines
      (message_lines, false))
    ([], true)).1

/-- The in-loop truncation of `send_message_lines` (and of long messages in
`changelog_entries_to_message_lines`):
`line[: DISCORD_SPLIT_LIMIT - 100].rstrip() + " [...]"` when over the limit. -/
def clip_line (line : String) : String :=
  if line.length > DISCORD_SPLIT_LIMIT then
    pyRstrip (strTake line (DISCORD_SPLIT_LIMIT - 100)) ++ " [...]"
  else line

/-- The chunking loop of `send_message_lines`.  The returned list of chunks
is the ordered sequence of `send_discord_webhook` deliveries; each chunk is
the `chunk_lines` list passed to one delivery. -/
def send_message_lines_go (chunks : List (List String)) (chunk_lines : List String)
    (chunk_length : Nat) : List String → List (List String)
  | [] => if chunk_lines.isEmpty then chunks else chunks ++ [chunk_lines]
  | line :: rest =>
    let line := clip_line line
    let line_length := line.length
    let new_chunk_length := chunk_length + line_length
    if new_chunk_length > DISCORD_SPLIT_LIMIT then
      let chunks := if chunk_lines.isEmpty then chunks else chunks ++ [chunk_lines]
      send_message_lines_go chunks [line] line_length rest
    else
      send_message_lines_go chunks (chunk_lines ++ [line]) new_chunk_length rest

/-- `send_message_lines(url, message_lines, ...)` as the sequence of chunks
it delivers. -/
def send_message_lines (message_lines : List String) : List (List String) :=
  send_message_lines_go [] [] 0 message_lines

/-- One scripted webhook response.  `body_retry_after` models
`resp.json().get("retry_after")` (with `none` for an unparsable body or a
missing key); `header_retry_after` models the parsed `Retry-After` header. -/
structure DiscordResponse where
  status : Nat
  body_retry_after : Option ℚ
  header_retry_after : Option ℚ
deriving DecidableEq

/-- Outcome of the `send_discord_webhook` retry loop on a finite response
script: delivered (200/204), failed (`resp.raise_for_status()`), or still
pending when the script ran out. -/
inductive WebhookResult where
  | delivered (attempts : Nat) (sleeps : List ℚ)
  | failed (status : Nat) (attempts : Nat) (sleeps : List ℚ)
  | pending (attempts : Nat) (sleeps : List ℚ)
deriving DecidableEq

/-- The retry loop of `send_discord_webhook`, consuming one scripted
response per attempt and recording every `time.sleep` duration.  The final
`resp.raise_for_status()` raises only for statuses 400–599; for any other
status it returns normally and the `while True` loop re-sends immediately,
with no sleep. -/
def send_discord_webhook_go (attempt : Nat) (sleeps : List ℚ) :
    List DiscordResponse → WebhookResult
  | [] => .pending attempt sleeps
  | resp :: rest =>
    let attempt := attempt + 1
    if resp.status = 200 ∨ resp.status = 204 then
      .delivered attempt sleeps
    else if resp.status = 429 then
      let retry_after : ℚ :=
        match resp.body_retry_after with
        | some v => v
        | none => resp.header_retry_after.getD 1
      send_discord_webhook_go attempt (sleeps ++ [max retry_after 0]) rest
    else if (resp.status = 500 ∨ resp.status = 502 ∨ resp.status = 503 ∨ resp.status = 504)
        ∧ attempt < 6 then
      let backoff : ℚ := min ((2 : ℚ) ^ attempt) 30
      send_discord_webhook_go attempt (sleeps ++ [backoff]) rest
    else if 400 ≤ resp.status ∧ resp.status < 600 then
      .failed resp.status attempt sleeps
    else
      send_discord_webhook_go attempt sleeps rest

/-- `send_discord_webhook(url, lines)` run against a finite response script. -/
def send_discord_webhook (responses : List DiscordResponse) : WebhookResult :=
  send_discord_webhook_go 0 [] responses

/-- The retry-after duration chosen for a 429 response: the body value if
present, else the parsed `Retry-After` header, else 1 second. -/
def retryAfterOf (resp : DiscordResponse) : ℚ :=
  match resp.body_retry_after with
  | some v => v
  | none => resp.header_retry_after.getD 1

/-! Spec-side definitions, written from the specification's wording, to be
compared with the functions above. -/

/-- Spec: an entry is added when its id is non-null and no old entry carries
that id (phrased over the entries themselves, not the id set). -/
def addedSpecPred (old_entries : List ChangelogEntry) (e : ChangelogEntry) : Bool :=
  match e.id with
  | none => false
  | some i => !(old_entries.any (fun oe => oe.id = some i))

/-- Spec: an entry is removed when its id is non-null and no new entry
carries that id. -/
def removedSpecPred (new_entries : List ChangelogEntry) (e : ChangelogEntry) : Bool :=
  match e.id with
  | none => false
  | some i => !(new_entries.any (fun oe => oe.id = some i))

/-- Spec: `e` belongs in `modified` iff it is a new entry whose id has
multiplicity exactly 1 in both lists and differs structurally from every
old entry carrying that id (there is exactly one such old entry). -/
def modifiedSpec (old_entries new_entries : List ChangelogEntry) (e : ChangelogEntry) : Prop :=
  e ∈ new_entries ∧
    ∃ i, e.id = some i ∧
      (entryIds old_entries).count i = 1 ∧
      (entryIds new_entries).count i = 1 ∧
      ∀ oe ∈ old_entries, oe.id = some i → oe ≠ e

/-- Spec: the direct tally of a change type over every change item of every
entry, with `str(change.get("type") or "")` as the item's type. -/
def changeTally (entries : List ChangelogEntry) (t : String) : Nat :=
  ((entries.map (fun e => e.changes.getD [])).flatten).countP (fun c => strOr c.type "" = t)

/-- Spec: the icon of a canonical change type, `"❓"` otherwise. -/
def emojiOf : String → String
  | "Fix" => "🐛"
  | "Add" => "🆕"
  | "Remove" => "❌"
  | "Tweak" => "⚒️"
  | _ => "❓"

/-- Spec: the authors of the entry list in order of first appearance. -/
def authorsInOrder (entries : List ChangelogEntry) : List String :=
  entries.foldl (fun l e => if l.contains (authorKey e) then l else l ++ [authorKey e]) []

/-- Spec: the entries of one author group, in the order given. -/
def entriesByAuthor (entries : List ChangelogEntry) (a : String) : List ChangelogEntry :=
  entries.filter (fun e => authorKey e = a)

/-- The concatenated length of a chunk (Python `len("".join(chunk_lines))`). -/
def sumLen (c : List String) : Nat :=
  (c.map String.length).sum

/-- Spec: a valid order-preserving chunking of a line sequence — consecutive
nonempty groups whose concatenation restores the sequence, each group's
concatenated length within the platform limit. -/
def isChunking (lines : List String) (chunks : List (List String)) : Prop :=
  chunks.flatten = lines ∧ ∀ c ∈ chunks, c ≠ [] ∧ (String.join c).length ≤ DISCORD_SPLIT_LIMIT

/-- The maximal chunk extension: starting from accumulated length `len`,
take lines while they keep the running total within the limit; return the
taken lines and the remainder. -/
def takeChunk (len : Nat) : List String → List String × List String
  | [] => ([], [])
  | l :: ls =>
    if len + l.length > DISCORD_SPLIT_LIMIT then ([], l :: ls)
    else
      let p := takeChunk (len + l.length) ls
      (l :: p.1, p.2)

/-- Greedy chunking, structured form: each chunk is its first line extended
maximally. -/
def greedyChunks : List String → List (List String)
  | [] => []
  | l :: ls =>
    (l :: (takeChunk l.length ls).1) :: greedyChunks (takeChunk l.length ls).2
termination_by ls => ls.length
decreasing_by
  have key : ∀ (len : Nat) (xs : List String), (takeChunk len xs).2.length ≤ xs.length := by
    intro len xs
    induction xs generalizing len with
    | nil => simp [takeChunk]
    | cons x xs ih =>
      rw [takeChunk]
      by_cases h : len + x.length > DISCORD_SPLIT_LIMIT
      · simp [h]
      · simpa [h] using Nat.le_succ_of_le (ih (len + x.length))
  exact Nat.lt_succ_of_le (key _ _)

/-- The chunking loop of `send_message_lines` on pre-truncated lines (the
in-loop `clip_line` factored out, for comparison with `greedyChunks`). -/
def chunk_loop (chunks : List (List String)) (chunk_lines : List String)
    (chunk_length : Nat) : List String → List (List String)
  | [] => if chunk_lines.isEmpty then chunks else chunks ++ [chunk_lines]
  | line :: rest =>
    let line_length := line.length
    let new_chunk_length := chunk_length + line_length
    if new_chunk_length > DISCORD_SPLIT_LIMIT then
      let chunks := if chunk_lines.isEmpty then chunks else chunks ++ [chunk_lines]
      chunk_loop chunks [line] line_length rest
    else
      chunk_loop chunks (chunk_lines ++ [line]) new_chunk_length rest

/-! Association-list (Python dict) lemmas. -/

theorem dictGet_dictSet_self {κ α : Type} [DecidableEq κ] (m : List (κ × α)) (k : κ) (v : α) :
    dictGet (dictSet m k v) k = some v := by
  induction m with
  | nil => simp [dictSet, dictGet]
  | cons hd t ih =>
    obtain ⟨k', v'⟩ := hd
    by_cases h : k' = k <;> simp [dictSet, dictGet, h, ih]

theorem dictGet_dictSet_ne {κ α : Type} [DecidableEq κ] (m : List (κ × α)) (k' k : κ) (v : α)
    (h : k' ≠ k) : dictGet (dictSet m k' v) k = dictGet m k := by
  induction m with
  | nil => simp [dictSet, dictGet, h]
  | cons hd t ih =>
    obtain ⟨k₀, v₀⟩ := hd
    by_cases h0 : k₀ = k' <;> simp [dictSet, dictGet, h0, h, ih]

theorem mem_entryIds {l : List ChangelogEntry} {i : Int} :
    i ∈ entryIds l ↔ ∃ e ∈ l, e.id = some i := by
  simp [entryIds, List.mem_filterMap]

/-! The `old_unique_by_id` fold.  The fold body is stated for an arbitrary
count function `c`, so that induction can proceed while in `diff_entries`
the count is taken over the whole old list. -/

theorem uniqueFold_get_of_not_mem (c : Int → Nat) (l : List ChangelogEntry)
    (m : List (Int × ChangelogEntry)) (i : Int) (h : ∀ e ∈ l, e.id ≠ some i) :
    dictGet
      (l.foldl
        (fun m e =>
          match e.id with
          | none => m
          | some j => if c j = 1 then dictSet m j e else m)
        m) i = dictGet m i := by
  induction l generalizing m with
  | nil => rfl
  | cons e t ih =>
    have he : e.id ≠ some i := h e (by simp)
    have ht : ∀ e' ∈ t, e'.id ≠ some i := fun e' h' => h e' (by simp [h'])
    cases hid : e.id with
    | none => simpa [List.foldl_cons, hid] using ih m ht
    | some j =>
      have hj : j ≠ i := by
        intro h'
        exact he (by rw [hid, h'])
      by_cases hc : c j = 1
      · simpa [List.foldl_cons, hid, hc, dictGet_dictSet_ne _ _ _ _ hj] using
          ih (dictSet m j e) ht
      · simpa [List.foldl_cons, hid, hc] using ih m ht

theorem uniqueFold_get_unique (c : Int → Nat) (l : List ChangelogEntry)
    (m : List (Int × ChangelogEntry)) (i : Int) (oe : ChangelogEntry)
    (hc : c i = 1) (hcount : (entryIds l).count i = 1) (hmem : oe ∈ l)
    (hid : oe.id = some i) :
    dictGet
      (l.foldl
        (fun m e =>
          match e.id with
          | none => m
          | some j => if c j = 1 then dictSet m j e else m)
        m) i = some oe := by
  induction l generalizing m with
  | nil => cases hmem
  | cons e t ih =>
    cases hide : e.id with
    | none =>
      have hoe : oe ∈ t := by
        rcases List.mem_cons.mp hmem with h | h
        · exact absurd (h ▸ hid) (by simp [hide])
        · exact h
      have hcount' : (entryIds t).count i = 1 := by
        simpa [entryIds, hide] using hcount
      simpa [List.foldl_cons, hide] using ih m hcount' hoe
    | some j =>
      by_cases hji : j = i
      · subst hji
        have hcount0 : (entryIds t).count j = 0 := by
          have : (entryIds (e :: t)).count j = (entryIds t).count j + 1 := by
            simp [entryIds, hide]
          omega
        have hnot : ∀ e' ∈ t, e'.id ≠ some j := by
          intro e' h' hid'
          have : j ∈ entryIds t := mem_entryIds.mpr ⟨e', h', hid'⟩
          have := List.count_pos_iff.mpr this
          omega
        have hoe : oe = e := by
          rcases List.mem_cons.mp hmem with h | h
          · exact h
          · exact absurd hid (hnot oe h)
        subst hoe
        simp only [List.foldl_cons, hide, hc, if_true]
        rw [uniqueFold_get_of_not_mem c t _ j hnot]
        exact dictGet_dictSet_self m j oe
      · have hoe : oe ∈ t := by
          rcases List.mem_cons.mp hmem with h | h
          · subst h
            rw [hide] at hid
            exact absurd (Option.some.inj hid) hji
          · exact h
        have hcount' : (entryIds t).count i = 1 := by
          have heq : entryIds (e :: t) = j :: entryIds t := by simp [entryIds, hide]
          rw [heq] at hcount
          simpa [List.count_cons, hji] using hcount
        by_cases hcj : c j = 1
        · simp only [List.foldl_cons, hide, if_pos hcj]
          exact ih (dictSet m j e) hcount' hoe
        · simp only [List.foldl_cons, hide, if_neg hcj]
          exact ih m hcount' hoe

theorem old_unique_by_id_get (o : List ChangelogEntry) (i : Int) (oe : ChangelogEntry)
    (hcount : (entryIds o).count i = 1) (hmem : oe ∈ o) (hid : oe.id = some i) :
    dictGet (old_unique_by_id o) i = some oe := by
  have h := uniqueFold_get_unique (fun j => (entryIds o).count j) o [] i oe hcount hcount
    hmem hid
  simpa [old_unique_by_id] using h

/-! Membership in the three outputs of `diff_entries`. -/

theorem mem_diff_added (o n : List ChangelogEntry) (e : ChangelogEntry) :
    e ∈ (diff_entries o n).1 ↔ e ∈ n ∧ ∃ i, e.id = some i ∧ i ∉ entryIds o := by
  simp only [diff_entries]
  rw [List.mem_filter]
  cases hid : e.id with
  | none => simp [hid]
  | some i => simp [hid]

theorem mem_diff_removed (o n : List ChangelogEntry) (e : ChangelogEntry) :
    e ∈ (diff_entries o n).2.2 ↔ e ∈ o ∧ ∃ i, e.id = some i ∧ i ∉ entryIds n := by
  simp only [diff_entries]
  rw [List.mem_filter]
  cases hid : e.id with
  | none => simp [hid]
  | some i => simp [hid]

theorem mem_diff_modified (o n : List ChangelogEntry) (e : ChangelogEntry) :
    e ∈ (diff_entries o n).2.1 ↔ modifiedSpec o n e := by
  constructor
  · intro h
    simp only [diff_entries] at h
    obtain ⟨hmem, hp⟩ := List.mem_filter.mp h
    cases hid : e.id with
    | none => rw [hid] at hp; simp at hp
    | some i =>
      rw [hid] at hp
      dsimp only at hp
      by_cases hco : (entryIds o).count i = 1
      · by_cases hcn : (entryIds n).count i = 1
        · rw [if_neg (by simp [hco, hcn])] at hp
          have hio : i ∈ entryIds o := List.count_pos_iff.mp (by omega)
          obtain ⟨oe₀, hoe₀, hid₀⟩ := mem_entryIds.mp hio
          have hget := old_unique_by_id_get o i oe₀ hco hoe₀ hid₀
          rw [hget] at hp
          have hne₀ : oe₀ ≠ e := by simpa using hp
          refine ⟨hmem, i, hid, hco, hcn, ?_⟩
          intro oe hoe hidoe
          have h2 := old_unique_by_id_get o i oe hco hoe hidoe
          rw [hget] at h2
          exact (Option.some.inj h2) ▸ hne₀
        · rw [if_pos (by simp [hcn])] at hp
          cases hp
      · rw [if_pos (by simp [hco])] at hp
        cases hp
  · rintro ⟨hmem, i, hid, hco, hcn, hne⟩
    have hio : i ∈ entryIds o := List.count_pos_iff.mp (by omega)
    obtain ⟨oe₀, hoe₀, hid₀⟩ := mem_entryIds.mp hio
    have hget := old_unique_by_id_get o i oe₀ hco hoe₀ hid₀
    simp only [diff_entries]
    refine List.mem_filter.mpr ⟨hmem, ?_⟩
    rw [hid]
    dsimp only
    rw [if_neg (by simp [hco, hcn]), hget]
    simpa using hne oe₀ hoe₀ hid₀

theorem contains_entryIds (o : List ChangelogEntry) (i : Int) :
    (entryIds o).contains i = o.any (fun oe => oe.id = some i) := by
  rw [Bool.eq_iff_iff]
  simp [mem_entryIds, List.any_eq_true]

/-- C1: no id value occurs in entries of more than one of the three outputs
of `diff_entries`. -/
theorem diff_entries_id_disjoint (o n : List ChangelogEntry) (i : Int) :
    ¬(i ∈ entryIds (diff_entries o n).1 ∧ i ∈ entryIds (diff_entries o n).2.1) ∧
    ¬(i ∈ entryIds (diff_entries o n).1 ∧ i ∈ entryIds (diff_entries o n).2.2) ∧
    ¬(i ∈ entryIds (diff_entries o n).2.1 ∧ i ∈ entryIds (diff_entries o n).2.2) := by
  have hadd : i ∈ entryIds (diff_entries o n).1 → i ∉ entryIds o := by
    intro h
    obtain ⟨e, he, hid⟩ := mem_entryIds.mp h
    obtain ⟨-, i', hid', hnot⟩ := (mem_diff_added o n e).mp he
    rw [hid] at hid'
    rw [Option.some.inj hid']
    exact hnot
  have hrem : i ∈ entryIds (diff_entries o n).2.2 → i ∈ entryIds o ∧ i ∉ entryIds n := by
    intro h
    obtain ⟨e, he, hid⟩ := mem_entryIds.mp h
    obtain ⟨hmem, i', hid', hnot⟩ := (mem_diff_removed o n e).mp he
    rw [hid] at hid'
    rw [Option.some.inj hid']
    exact ⟨mem_entryIds.mpr ⟨e, hmem, hid' ▸ hid⟩, hnot⟩
  have hmod : i ∈ entryIds (diff_entries o n).2.1 → i ∈ entryIds o ∧ i ∈ entryIds n := by
    intro h
    obtain ⟨e, he, hid⟩ := mem_entryIds.mp h
    obtain ⟨-, i', hid', hco, hcn, -⟩ := (mem_diff_modified o n e).mp he
    rw [hid] at hid'
    rw [Option.some.inj hid']
    exact ⟨List.count_pos_iff.mp (by omega), List.count_pos_iff.mp (by omega)⟩
  refine ⟨?_, ?_, ?_⟩
  · rintro ⟨ha, hm⟩
    exact hadd ha (hmod hm).1
  · rintro ⟨ha, hr⟩
    exact hadd ha (hrem hr).1
  · rintro ⟨hm, hr⟩
    exact (hrem hr).2 (hmod hm).2

theorem diff_entries_id_disjoint_witness :
    (1 : Int) ∈ entryIds (diff_entries [] [⟨some 1, none, none, []⟩]).1 ∧
    (1 : Int) ∉ entryIds (diff_entries [] [⟨some 1, none, none, []⟩]).2.1 := by
  refine ⟨by decide, fun h => ?_⟩
  exact (diff_entries_id_disjoint [] [⟨some 1, none, none, []⟩] 1).1 ⟨by decide, h⟩

/-- C2: an entry of `new_entries` lands in `modified` iff its id is non-null,
has multiplicity exactly 1 in both lists, and the unique old entry with that
id differs structurally; ids of other multiplicity contribute nothing. -/
theorem diff_entries_modified_iff (o n : List ChangelogEntry) :
    (∀ e, e ∈ (diff_entries o n).2.1 ↔ modifiedSpec o n e) ∧
    (∀ i : Int, ((entryIds o).count i ≠ 1 ∨ (entryIds n).count i ≠ 1) →
      ∀ e ∈ (diff_entries o n).2.1, e.id ≠ some i) := by
  refine ⟨fun e => mem_diff_modified o n e, ?_⟩
  intro i hi e he hid
  obtain ⟨-, i', hid', hco, hcn, -⟩ := (mem_diff_modified o n e).mp he
  rw [hid] at hid'
  cases Option.some.inj hid'
  rcases hi with h | h
  · exact h hco
  · exact h hcn

theorem diff_entries_modified_iff_witness :
    (⟨some 1, some "B", none, []⟩ : ChangelogEntry) ∈
      (diff_entries [⟨some 1, some "A", none, []⟩] [⟨some 1, some "B", none, []⟩]).2.1 ∧
    ∀ e ∈ (diff_entries [⟨some 2, none, none, []⟩, ⟨some 2, none, none, []⟩]
        [⟨some 2, some "B", none, []⟩]).2.1, e.id ≠ some 2 := by
  constructor
  · exact ((diff_entries_modified_iff [⟨some 1, some "A", none, []⟩]
      [⟨some 1, some "B", none, []⟩]).1 _).mpr
      ⟨by decide, 1, rfl, by decide, by decide, by decide⟩
  · exact (diff_entries_modified_iff [⟨some 2, none, none, []⟩, ⟨some 2, none, none, []⟩]
      [⟨some 2, some "B", none, []⟩]).2 2 (Or.inl (by decide))

/-- C3: `added` is exactly the new-list subsequence of entries with a
non-null id absent from the old ids, `removed` the old-list subsequence with
id absent from the new ids; in particular a duplicated old id wholly absent
from the new list is removed once per occurrence. -/
theorem diff_entries_added_removed_spec (o n : List ChangelogEntry) :
    (diff_entries o n).1 = n.filter (addedSpecPred o) ∧
    (diff_entries o n).2.2 = o.filter (removedSpecPred n) ∧
    diff_entries [⟨some 1, some "a", none, []⟩, ⟨some 1, some "b", none, []⟩] [] =
      ([], [], [⟨some 1, some "a", none, []⟩, ⟨some 1, some "b", none, []⟩]) := by
  refine ⟨?_, ?_, by decide⟩
  · simp only [diff_entries]
    refine List.filter_congr ?_
    intro e _
    cases hid : e.id with
    | none => simp [addedSpecPred, hid]
    | some i =>
      rw [Bool.eq_iff_iff]
      simp [addedSpecPred, hid, mem_entryIds]
  · simp only [diff_entries]
    refine List.filter_congr ?_
    intro e _
    cases hid : e.id with
    | none => simp [removedSpecPred, hid]
    | some i =>
      rw [Bool.eq_iff_iff]
      simp [removedSpecPred, hid, mem_entryIds]

/-- C4: diffing any entry list against itself yields empty
added/modified/removed, duplicate and missing ids included. -/
theorem diff_entries_self (l : List ChangelogEntry) :
    diff_entries l l = ([], [], []) := by
  simp only [diff_entries, Prod.mk.injEq]
  refine ⟨?_, ?_, ?_⟩
  · rw [List.filter_eq_nil_iff]
    intro e he
    cases hid : e.id with
    | none => simp
    | some i =>
      have : i ∈ entryIds l := mem_entryIds.mpr ⟨e, he, hid⟩
      simp [this]
  · rw [List.filter_eq_nil_iff]
    intro e he
    cases hid : e.id with
    | none => simp
    | some i =>
      dsimp only
      by_cases hc : (entryIds l).count i = 1
      · rw [if_neg (by simp [hc])]
        rw [old_unique_by_id_get l i e hc he hid]
        simp
      · rw [if_pos (by simp [hc])]
        simp
  · rw [List.filter_eq_nil_iff]
    intro e he
    cases hid : e.id with
    | none => simp
    | some i =>
      have : i ∈ entryIds l := mem_entryIds.mpr ⟨e, he, hid⟩
      simp [this]

/-! Change-type tallies (C5). -/

theorem dictGetD_dictSet {κ α : Type} [DecidableEq κ] (m : List (κ × α)) (k t : κ) (v : α)
    (d : α) : dictGetD (dictSet m k v) t d = if k = t then v else dictGetD m t d := by
  by_cases h : k = t
  · subst h
    simp [dictGetD, dictGet_dictSet_self]
  · simp [dictGetD, dictGet_dictSet_ne _ _ _ _ h, h]

theorem count_inner_get (cs : List ChangeItem) (m : List (String × Nat)) (t : String)
    (ht : t ≠ "") :
    dictGetD
      (cs.foldl
        (fun counts change =>
          let change_type := strOr change.type ""
          if change_type = "" then counts
          else dictSet counts change_type (dictGetD counts change_type 0 + 1))
        m) t 0
      = dictGetD m t 0 + cs.countP (fun c => strOr c.type "" = t) := by
  induction cs generalizing m with
  | nil => simp
  | cons c cs ih =>
    by_cases hct : strOr c.type "" = ""
    · have hpred : ("" : String) ≠ t := fun h => ht h.symm
      simp [List.foldl_cons, hct, ih, List.countP_cons, hpred]
    · rw [List.foldl_cons]
      dsimp only
      rw [if_neg hct]
      rw [ih, dictGetD_dictSet]
      by_cases hkt : strOr c.type "" = t
      · simp [List.countP_cons, hkt]
        omega
      · simp [List.countP_cons, hkt]

theorem count_outer_get (entries : List ChangelogEntry) (m : List (String × Nat)) (t : String)
    (ht : t ≠ "") :
    dictGetD
      (entries.foldl
        (fun counts e =>
          match e.changes with
          | none => counts
          | some changes =>
            changes.foldl
              (fun counts change =>
                let change_type := strOr change.type ""
                if change_type = "" then counts
                else dictSet counts change_type (dictGetD counts change_type 0 + 1))
              counts)
        m) t 0
      = dictGetD m t 0 + changeTally entries t := by
  induction entries generalizing m with
  | nil => simp [changeTally]
  | cons e es ih =>
    cases hch : e.changes with
    | none =>
      rw [List.foldl_cons]
      dsimp only [hch]
      rw [hch]  -- may be redundant
      rw [ih]
      simp [changeTally, hch]
    | some cs =>
      rw [List.foldl_cons]
      rw [hch]
      dsimp only
      rw [ih, count_inner_get cs m t ht]
      simp [changeTally, hch, List.countP_append]
      omega

theorem count_change_types_get (entries : List ChangelogEntry) (t : String) (ht : t ≠ "") :
    dictGetD (count_change_types entries) t 0 = changeTally entries t := by
  have h := count_outer_get entries [("Add", 0), ("Fix", 0), ("Remove", 0), ("Tweak", 0)] t ht
  have hz : dictGetD [("Add", 0), ("Fix", 0), ("Remove", 0), ("Tweak", 0)] t 0 = 0 := by
    simp only [dictGetD, dictGet]
    repeat' split
    all_goals rfl
  rw [count_change_types, h, hz]
  exact Nat.zero_add _

theorem filterMap_if_eq_filter_map {α β : Type} (l : List α) (p : α → Nat) (g : α → β) :
    l.filterMap (fun t => if p t = 0 then none else some (g t)) =
      (l.filter (fun t => p t ≠ 0)).map g := by
  induction l with
  | nil => rfl
  | cons x xs ih => by_cases h : p x = 0 <;> simp [h, ih]

/-- C5: the per-file summary shows only the four canonical types, in the
fixed order Add/Fix/Remove/Tweak, each exactly when its tally is nonzero;
unrecognized types are tallied by `count_change_types` but never rendered. -/
theorem render_change_type_summary_spec (entries : List ChangelogEntry) :
    (∀ t : String, t ≠ "" → dictGetD (count_change_types entries) t 0 = changeTally entries t) ∧
    render_change_type_summary entries =
      String.intercalate " • "
        ((["Add", "Fix", "Remove", "Tweak"].filter (fun t => changeTally entries t ≠ 0)).map
          (fun t => emojiOf t ++ " " ++ toString (changeTally entries t))) := by
  refine ⟨fun t => count_change_types_get entries t, ?_⟩
  simp only [render_change_type_summary]
  rw [filterMap_if_eq_filter_map (["Add", "Fix", "Remove", "Tweak"])
    (fun t => dictGetD (count_change_types entries) t 0)
    (fun t => dictGetD TYPES_TO_EMOJI t "❓" ++ " " ++ toString (dictGetD (count_change_types entries) t 0))]
  have hfil : (["Add", "Fix", "Remove", "Tweak"].filter
        (fun t => dictGetD (count_change_types entries) t 0 ≠ 0)) =
      (["Add", "Fix", "Remove", "Tweak"].filter (fun t => changeTally entries t ≠ 0)) := by
    refine List.filter_congr ?_
    intro t htl
    fin_cases htl <;>
      simp [count_change_types_get entries "Add" (by decide),
        count_change_types_get entries "Fix" (by decide),
        count_change_types_get entries "Remove" (by decide),
        count_change_types_get entries "Tweak" (by decide)]
  rw [hfil]
  refine congrArg _ ?_
  refine List.map_congr_left ?_
  intro t htl
  have htl4 : t ∈ ["Add", "Fix", "Remove", "Tweak"] := List.mem_of_mem_filter htl
  fin_cases htl4
  · rw [count_change_types_get entries "Add" (by decide)]
    rfl
  · rw [count_change_types_get entries "Fix" (by decide)]
    rfl
  · rw [count_change_types_get entries "Remove" (by decide)]
    rfl
  · rw [count_change_types_get entries "Tweak" (by decide)]
    rfl

theorem render_change_type_summary_spec_witness :
    dictGetD (count_change_types
        [⟨some 1, none, some [⟨some "Weird", some "m"⟩, ⟨some "Add", some "x"⟩], []⟩])
        "Weird" 0
      = changeTally
        [⟨some 1, none, some [⟨some "Weird", some "m"⟩, ⟨some "Add", some "x"⟩], []⟩] "Weird" ∧
    render_change_type_summary
        [⟨some 1, none, some [⟨some "Weird", some "m"⟩, ⟨some "Add", some "x"⟩], []⟩]
      = "🆕 1" := by
  exact ⟨(render_change_type_summary_spec _).1 "Weird" (by decide), by decide⟩

/-! Author grouping (C6). -/

theorem authorsInOrder_snoc (l : List ChangelogEntry) (e : ChangelogEntry) :
    authorsInOrder (l ++ [e]) =
      if (authorsInOrder l).contains (authorKey e) then authorsInOrder l
      else authorsInOrder l ++ [authorKey e] := by
  simp only [authorsInOrder, List.foldl_append, List.foldl_cons, List.foldl_nil]

theorem mem_authorsInOrder_aux (l : List ChangelogEntry) (acc : List String) (a : String) :
    (a ∈ l.foldl (fun l e => if l.contains (authorKey e) then l else l ++ [authorKey e]) acc) ↔
      a ∈ acc ∨ ∃ e ∈ l, authorKey e = a := by
  induction l generalizing acc with
  | nil => simp
  | cons e t ih =>
    rw [List.foldl_cons]
    by_cases h : acc.contains (authorKey e)
    · rw [if_pos h, ih]
      have hmem : authorKey e ∈ acc := by simpa using h
      constructor
      · rintro (ha | ⟨e', he', hk⟩)
        · exact Or.inl ha
        · exact Or.inr ⟨e', List.mem_cons_of_mem _ he', hk⟩
      · rintro (ha | ⟨e', he', hk⟩)
        · exact Or.inl ha
        · rcases List.mem_cons.mp he' with rfl | he''
          · exact Or.inl (hk ▸ hmem)
          · exact Or.inr ⟨e', he'', hk⟩
    · rw [if_neg h, ih]
      constructor
      · rintro (ha | ⟨e', he', hk⟩)
        · rcases List.mem_append.mp ha with ha' | ha''
          · exact Or.inl ha'
          · exact Or.inr ⟨e, List.mem_cons_self _ _, (List.mem_singleton.mp ha'').symm⟩
        · exact Or.inr ⟨e', List.mem_cons_of_mem _ he', hk⟩
      · rintro (ha | ⟨e', he', hk⟩)
        · exact Or.inl (List.mem_append.mpr (Or.inl ha))
        · rcases List.mem_cons.mp he' with rfl | he''
          · exact Or.inl (List.mem_append.mpr (Or.inr (by simp [hk])))
          · exact Or.inr ⟨e', he'', hk⟩

theorem mem_authorsInOrder (l : List ChangelogEntry) (a : String) :
    a ∈ authorsInOrder l ↔ ∃ e ∈ l, authorKey e = a := by
  rw [authorsInOrder, mem_authorsInOrder_aux l [] a]
  simp

theorem authorsInOrder_nodup_aux (l : List ChangelogEntry) (acc : List String)
    (hacc : acc.Nodup) :
    (l.foldl (fun l e => if l.contains (authorKey e) then l else l ++ [authorKey e])
      acc).Nodup := by
  induction l generalizing acc with
  | nil => exact hacc
  | cons e t ih =>
    rw [List.foldl_cons]
    by_cases h : acc.contains (authorKey e)
    · rw [if_pos h]
      exact ih acc hacc
    · rw [if_neg h]
      refine ih _ ?_
      rw [← List.concat_eq_append]
      exact List.Nodup.concat (by simpa using h) hacc

theorem authorsInOrder_nodup (l : List ChangelogEntry) : (authorsInOrder l).Nodup :=
  authorsInOrder_nodup_aux l [] List.nodup_nil

theorem dictPush_map_mem (ks : List String) (f : String → List ChangelogEntry) (k : String)
    (e : ChangelogEntry) (hnd : ks.Nodup) (hk : k ∈ ks) :
    dictPush (ks.map (fun a => (a, f a))) k e =
      ks.map (fun a => (a, if a = k then f a ++ [e] else f a)) := by
  induction ks with
  | nil => cases hk
  | cons a ks ih =>
    rw [List.map_cons, List.map_cons]
    by_cases hak : a = k
    · rw [dictPush, if_pos hak]
      subst hak
      have hnot : a ∉ ks := (List.nodup_cons.mp hnd).1
      have hmap : ks.map (fun a' => (a', if a' = a then f a' ++ [e] else f a')) =
          ks.map (fun a' => (a', f a')) := by
        refine List.map_congr_left ?_
        intro a' ha'
        have : a' ≠ a := fun h => hnot (h ▸ ha')
        simp [this]
      rw [hmap]
      simp
    · rw [dictPush, if_neg hak]
      have hk' : k ∈ ks := by
        rcases List.mem_cons.mp hk with h | h
        · exact absurd h.symm hak
        · exact h
      rw [ih (List.nodup_cons.mp hnd).2 hk']
      simp [hak]

theorem dictPush_map_not_mem (ks : List String) (f : String → List ChangelogEntry)
    (k : String) (e : ChangelogEntry) (hk : k ∉ ks) :
    dictPush (ks.map (fun a => (a, f a))) k e = ks.map (fun a => (a, f a)) ++ [(k, [e])] := by
  induction ks with
  | nil => rfl
  | cons a ks ih =>
    have hak : a ≠ k := fun h => hk (h ▸ List.mem_cons_self a ks)
    rw [List.map_cons, dictPush, if_neg hak, ih (fun h => hk (List.mem_cons_of_mem _ h))]
    simp

theorem entriesByAuthor_snoc (l : List ChangelogEntry) (e : ChangelogEntry) (a : String) :
    entriesByAuthor (l ++ [e]) a =
      entriesByAuthor l a ++ if authorKey e = a then [e] else [] := by
  simp only [entriesByAuthor, List.filter_append]
  by_cases h : authorKey e = a <;> simp [h]

theorem by_author_snoc (l : List ChangelogEntry) (e : ChangelogEntry) :
    by_author (l ++ [e]) = dictPush (by_author l) (authorKey e) e := by
  simp only [by_author, List.foldl_append, List.foldl_cons, List.foldl_nil]

theorem by_author_eq (entries : List ChangelogEntry) :
    by_author entries = (authorsInOrder entries).map (fun a => (a, entriesByAuthor entries a)) := by
  induction entries using List.reverseRecOn with
  | nil => rfl
  | append_singleton l e ih =>
    rw [by_author_snoc, ih, authorsInOrder_snoc]
    by_cases h : (authorsInOrder l).contains (authorKey e)
    · rw [if_pos h]
      have hmem : authorKey e ∈ authorsInOrder l := by simpa using h
      rw [dictPush_map_mem _ _ _ _ (authorsInOrder_nodup l) hmem]
      refine List.map_congr_left ?_
      intro a _
      rw [entriesByAuthor_snoc]
      by_cases hak : a = authorKey e
      · simp [hak]
      · have hka : ¬(authorKey e = a) := fun h' => hak h'.symm
        simp [hak, hka]
    · rw [if_neg h]
      have hmem : authorKey e ∉ authorsInOrder l := by simpa using h
      rw [dictPush_map_not_mem _ _ _ _ hmem, List.map_append]
      congr 1
      · refine List.map_congr_left ?_
        intro a ha
        rw [entriesByAuthor_snoc]
        have : ¬(authorKey e = a) := fun h' => hmem (h' ▸ ha)
        simp [this]
      · have hnil : entriesByAuthor l (authorKey e) = [] := by
          rw [entriesByAuthor, List.filter_eq_nil_iff]
          intro x hx hkey
          exact hmem ((mem_authorsInOrder l (authorKey e)).mpr ⟨x, hx, by simpa using hkey⟩)
        simp [entriesByAuthor_snoc, hnil]

/-! Rendering the author groups (C6). -/

theorem intercalate_map_sep {α : Type} (sep : List α) (glines : (String × List ChangelogEntry) → List α)
    (g : String × List ChangelogEntry) (gs : List (String × List ChangelogEntry)) :
    List.intercalate sep (List.map glines (g :: gs)) =
      glines g ++ gs.flatMap (fun ag => sep ++ glines ag) := by
  induction gs generalizing g with
  | nil => simp [List.intercalate]
  | cons g' gs ih =>
    rw [List.map_cons]
    rw [show List.intercalate sep (glines g :: List.map glines (g' :: gs)) =
      glines g ++ sep ++ List.intercalate sep (List.map glines (g' :: gs)) from ?_]
    · rw [ih g']
      simp
    · rw [List.map_cons, List.intercalate, List.intercalate]
      rw [List.intersperse_cons_cons]
      simp

theorem message_fold_false (groups : List (String × List ChangelogEntry)) (acc : List String) :
    (groups.foldl
      (fun (st : List String × Bool) ag =>
        let message_lines := st.1
        let first := st.2
        let message_lines := if first then message_lines else message_lines ++ ["\n"]
        let message_lines := message_lines ++ ["**" ++ ag.1 ++ "**:\n"]
        let message_lines := message_lines ++ ag.2.flatMap entryDetailLines
        (message_lines, false))
      (acc, false)).1
    = acc ++ groups.flatMap
        (fun ag => "\n" :: ("**" ++ ag.1 ++ "**:\n") :: ag.2.flatMap entryDetailLines) := by
  induction groups generalizing acc with
  | nil => simp
  | cons g gs ih =>
    rw [List.foldl_cons]
    dsimp only
    rw [if_neg (by simp)]
    rw [ih]
    simp

theorem message_fold_start (groups : List (String × List ChangelogEntry)) :
    (groups.foldl
      (fun (st : List String × Bool) ag =>
        let message_lines := st.1
        let first := st.2
        let message_lines := if first then message_lines else message_lines ++ ["\n"]
        let message_lines := message_lines ++ ["**" ++ ag.1 ++ "**:\n"]
        let message_lines := message_lines ++ ag.2.flatMap entryDetailLines
        (message_lines, false))
      (([] : List String), true)).1
    = List.intercalate ["\n"]
        (groups.map (fun ag => ("**" ++ ag.1 ++ "**:\n") :: ag.2.flatMap entryDetailLines)) := by
  cases groups with
  | nil => rfl
  | cons g gs =>
    rw [List.foldl_cons]
    dsimp only
    rw [if_pos rfl]
    rw [message_fold_false]
    rw [intercalate_map_sep]
    simp

/-- C6: detail lines are grouped by author in first-appearance order with the
`"Невідомо"` sentinel for a missing or empty author, exactly one blank line
separates consecutive author groups, and whitespace-only messages produce no
line. -/
theorem changelog_entries_to_message_lines_spec (entries : List ChangelogEntry) :
    changelog_entries_to_message_lines entries =
      List.intercalate ["\n"]
        ((authorsInOrder entries).map (fun a =>
          ("**" ++ a ++ "**:\n") :: (entriesByAuthor entries a).flatMap entryDetailLines)) ∧
    (∀ e : ChangelogEntry, e.author = none ∨ e.author = some "" → authorKey e = "Невідомо") ∧
    (∀ c : ChangeItem, (strOr c.message "").data.all isPySpace → changeDetailLine c = none) := by
  refine ⟨?_, ?_, ?_⟩
  · rw [changelog_entries_to_message_lines, by_author_eq, message_fold_start, List.map_map]
    rfl
  · intro e h
    rcases h with h | h <;> simp [authorKey, strOr, h]
  · intro c h
    have hstrip : pyStrip (strOr c.message "") = "" := by
      have hdrop : (strOr c.message "").data.dropWhile isPySpace = [] :=
        List.dropWhile_eq_nil_iff.mpr (by simpa [List.all_eq_true] using h)
      rw [pyStrip, hdrop]
      rfl
    simp [changeDetailLine, hstrip]

theorem changelog_entries_to_message_lines_spec_witness :
    changelog_entries_to_message_lines
        [⟨some 1, some "A", some [⟨some "Fix", some "x"⟩], []⟩,
         ⟨some 2, some "B", some [⟨some "Add", some "y"⟩], []⟩,
         ⟨some 3, some "A", some [⟨some "Tweak", some " w "⟩], []⟩]
      = List.intercalate ["\n"]
        ((authorsInOrder
            [⟨some 1, some "A", some [⟨some "Fix", some "x"⟩], []⟩,
             ⟨some 2, some "B", some [⟨some "Add", some "y"⟩], []⟩,
             ⟨some 3, some "A", some [⟨some "Tweak", some " w "⟩], []⟩]).map (fun a =>
          ("**" ++ a ++ "**:\n") ::
            (entriesByAuthor
              [⟨some 1, some "A", some [⟨some "Fix", some "x"⟩], []⟩,
               ⟨some 2, some "B", some [⟨some "Add", some "y"⟩], []⟩,
               ⟨some 3, some "A", some [⟨some "Tweak", some " w "⟩], []⟩] a).flatMap
              entryDetailLines)) ∧
    authorKey ⟨some 9, none, none, []⟩ = "Невідомо" ∧
    changeDetailLine ⟨some "Fix", some "   "⟩ = none := by
  refine ⟨(changelog_entries_to_message_lines_spec _).1, ?_, ?_⟩
  · exact (changelog_entries_to_message_lines_spec []).2.1 _ (Or.inl rfl)
  · exact (changelog_entries_to_message_lines_spec []).2.2 _ (by decide)

/-! The `send_discord_webhook` retry loop (C9). -/

/-- C9 (counterexample to the original claim): a 201 response — non-200/204
— does not surface an error: `raise_for_status()` does not raise for it, the
loop re-sends immediately, and with a 204 next the delivery succeeds on
attempt 2; with the script exhausted after the 201 the loop is still
pending, not failed. -/
theorem send_discord_webhook_non_error_counterexample :
    send_discord_webhook [⟨201, none, none⟩, ⟨204, none, none⟩] = .delivered 2 [] ∧
    send_discord_webhook [⟨201, none, none⟩] = .pending 1 [] ∧
    send_discord_webhook [⟨201, none, none⟩] ≠ .failed 201 1 [] := by
  refine ⟨by decide, by decide, by decide⟩

/-- C9 (amended): a 429 response is retried with no attempt cap, sleeping
for the body `retry_after`, else the `Retry-After` header, else 1 second,
floored at 0; a transient 5xx (500/502/503/504) is retried with backoff
`min(2^attempt, 30)` for at most 6 total attempts, after which the error is
surfaced; six consecutive 503s fail after the sixth attempt with sleeps
2, 4, 8, 16, 30; any other status in 400–599 surfaces an error immediately;
but a non-200/204 status outside 400–599 (such as 201 or 303) surfaces no
error — `raise_for_status()` does not raise and the loop re-sends
immediately with no sleep. -/
theorem send_discord_webhook_retry_policy :
    (∀ (attempt : Nat) (sleeps : List ℚ) (resp : DiscordResponse)
        (rest : List DiscordResponse),
      resp.status = 429 →
      send_discord_webhook_go attempt sleeps (resp :: rest) =
        send_discord_webhook_go (attempt + 1) (sleeps ++ [max (retryAfterOf resp) 0]) rest) ∧
    (∀ (attempt : Nat) (sleeps : List ℚ) (resp : DiscordResponse)
        (rest : List DiscordResponse),
      (resp.status = 500 ∨ resp.status = 502 ∨ resp.status = 503 ∨ resp.status = 504) →
      attempt + 1 < 6 →
      send_discord_webhook_go attempt sleeps (resp :: rest) =
        send_discord_webhook_go (attempt + 1)
          (sleeps ++ [min ((2 : ℚ) ^ (attempt + 1)) 30]) rest) ∧
    (∀ (attempt : Nat) (sleeps : List ℚ) (resp : DiscordResponse)
        (rest : List DiscordResponse),
      (resp.status = 500 ∨ resp.status = 502 ∨ resp.status = 503 ∨ resp.status = 504) →
      ¬(attempt + 1 < 6) →
      send_discord_webhook_go attempt sleeps (resp :: rest) =
        .failed resp.status (attempt + 1) sleeps) ∧
    (∀ (attempt : Nat) (sleeps : List ℚ) (resp : DiscordResponse)
        (rest : List DiscordResponse),
      resp.status ∉ ([200, 204, 429, 500, 502, 503, 504] : List Nat) →
      400 ≤ resp.status → resp.status < 600 →
      send_discord_webhook_go attempt sleeps (resp :: rest) =
        .failed resp.status (attempt + 1) sleeps) ∧
    (∀ (attempt : Nat) (sleeps : List ℚ) (resp : DiscordResponse)
        (rest : List DiscordResponse),
      resp.status ∉ ([200, 204, 429] : List Nat) →
      ¬(400 ≤ resp.status ∧ resp.status < 600) →
      send_discord_webhook_go attempt sleeps (resp :: rest) =
        send_discord_webhook_go (attempt + 1) sleeps rest) ∧
    send_discord_webhook (List.replicate 6 ⟨503, none, none⟩) =
      .failed 503 6 [2, 4, 8, 16, 30] := by
  refine ⟨?_, ?_, ?_, ?_, ?_, ?_⟩
  · intro attempt sleeps resp rest h
    simp [send_discord_webhook_go, retryAfterOf, h]
  · intro attempt sleeps resp rest h hlt
    rcases h with h | h | h | h <;>
      simp [send_discord_webhook_go, h, hlt]
  · intro attempt sleeps resp rest h hge
    rcases h with h | h | h | h <;>
      simp [send_discord_webhook_go, h, hge]
  · intro attempt sleeps resp rest h h400 h600
    simp only [List.mem_cons, List.not_mem_nil, or_false] at h
    push_neg at h
    obtain ⟨h200, h204, h429, h500, h502, h503, h504⟩ := h
    simp [send_discord_webhook_go, h200, h204, h429, h500, h502, h503, h504, h400, h600]
  · intro attempt sleeps resp rest h hr
    simp only [List.mem_cons, List.not_mem_nil, or_false] at h
    push_neg at h
    obtain ⟨h200, h204, h429⟩ := h
    have h500 : resp.status ≠ 500 := by omega
    have h502 : resp.status ≠ 502 := by omega
    have h503 : resp.status ≠ 503 := by omega
    have h504 : resp.status ≠ 504 := by omega
    simp [send_discord_webhook_go, h200, h204, h429, h500, h502, h503, h504, hr]
  · show send_discord_webhook_go 0 [] (List.replicate 6 ⟨503, none, none⟩) =
      .failed 503 6 [2, 4, 8, 16, 30]
    rw [show List.replicate 6 (⟨503, none, none⟩ : DiscordResponse) =
      [⟨503, none, none⟩, ⟨503, none, none⟩, ⟨503, none, none⟩, ⟨503, none, none⟩,
       ⟨503, none, none⟩, ⟨503, none, none⟩] from rfl]
    simp only [send_discord_webhook_go]
    norm_num

theorem send_discord_webhook_retry_policy_witness :
    send_discord_webhook_go 10 [] [⟨429, some 3, none⟩] =
      send_discord_webhook_go 11 [max (3 : ℚ) 0] [] ∧
    send_discord_webhook_go 5 [] [⟨503, none, none⟩] = .failed 503 6 [] ∧
    send_discord_webhook_go 0 [] [⟨404, none, none⟩] = .failed 404 1 [] ∧
    send_discord_webhook_go 0 [] [⟨201, none, none⟩] =
      send_discord_webhook_go 1 [] [] := by
  refine ⟨?_, ?_, ?_, ?_⟩
  · exact send_discord_webhook_retry_policy.1 10 [] ⟨429, some 3, none⟩ [] rfl
  · exact send_discord_webhook_retry_policy.2.2.1 5 [] ⟨503, none, none⟩ []
      (Or.inr (Or.inr (Or.inl rfl))) (by omega)
  · exact send_discord_webhook_retry_policy.2.2.2.1 0 [] ⟨404, none, none⟩ []
      (by decide) (by decide) (by decide)
  · exact send_discord_webhook_retry_policy.2.2.2.2.1 0 [] ⟨201, none, none⟩ []
      (by decide) (by decide)

/-! Chunking (C7, C8, C10). -/

theorem sumLen_nil : sumLen [] = 0 := rfl

theorem sumLen_cons (x : String) (l : List String) :
    sumLen (x :: l) = x.length + sumLen l := by
  simp [sumLen]

theorem sumLen_append (a b : List String) : sumLen (a ++ b) = sumLen a + sumLen b := by
  simp [sumLen]

theorem string_join_length (l : List String) : (String.join l).length = sumLen l := by
  have aux : ∀ (l : List String) (s : String),
      (l.foldl (fun r s => r ++ s) s).length = s.length + sumLen l := by
    intro l
    induction l with
    | nil => intro s; simp [sumLen]
    | cons x xs ih =>
      intro s
      rw [List.foldl_cons, ih, String.length_append, sumLen_cons]
      omega
  simpa using aux l ""

theorem takeChunk_append (len : Nat) (ls : List String) :
    (takeChunk len ls).1 ++ (takeChunk len ls).2 = ls := by
  induction ls generalizing len with
  | nil => rfl
  | cons l ls ih =>
    simp only [takeChunk]
    split
    · rfl
    · simpa using ih (len + l.length)

theorem takeChunk_snd_length (len : Nat) (ls : List String) :
    (takeChunk len ls).2.length ≤ ls.length := by
  conv_rhs => rw [← takeChunk_append len ls]
  simp

theorem takeChunk_fst_bound (ls : List String) (len : Nat)
    (h : len ≤ DISCORD_SPLIT_LIMIT) :
    len + sumLen (takeChunk len ls).1 ≤ DISCORD_SPLIT_LIMIT := by
  induction ls generalizing len with
  | nil => simpa [takeChunk, sumLen] using h
  | cons l ls ih =>
    rw [takeChunk]
    by_cases hc : len + l.length > DISCORD_SPLIT_LIMIT
    · simpa [hc, sumLen] using h
    · have := ih (len + l.length) (by omega)
      simp only [hc, if_false, if_neg hc]
      rw [sumLen_cons]
      omega

theorem takeChunk_prefix (g : List String) (rest : List String) (len : Nat)
    (h : len + sumLen g ≤ DISCORD_SPLIT_LIMIT) :
    takeChunk len (g ++ rest) =
      (g ++ (takeChunk (len + sumLen g) rest).1, (takeChunk (len + sumLen g) rest).2) := by
  induction g generalizing len with
  | nil => simp [sumLen]
  | cons x g ih =>
    rw [List.cons_append, takeChunk]
    have hs : sumLen (x :: g) = x.length + sumLen g := sumLen_cons x g
    have hx : ¬(len + x.length > DISCORD_SPLIT_LIMIT) := by omega
    rw [if_neg hx]
    rw [ih (len + x.length) (by omega)]
    have harg : len + x.length + sumLen g = len + sumLen (x :: g) := by omega
    rw [harg]
    simp

theorem send_go_eq_chunk_loop (ls : List String) (ch : List (List String))
    (cl : List String) (len : Nat) :
    send_message_lines_go ch cl len ls = chunk_loop ch cl len (ls.map clip_line) := by
  induction ls generalizing ch cl len with
  | nil => rfl
  | cons l ls ih =>
    rw [List.map_cons]
    rw [send_message_lines_go, chunk_loop]
    dsimp only
    by_cases h : len + (clip_line l).length > DISCORD_SPLIT_LIMIT
    · simp only [if_pos h]
      exact ih _ _ _
    · simp only [if_neg h]
      exact ih _ _ _

theorem chunk_loop_eq_greedy (ls : List String) (ch : List (List String))
    (cl : List String) (len : Nat) (hcl : cl ≠ []) :
    chunk_loop ch cl len ls =
      ch ++ (cl ++ (takeChunk len ls).1) :: greedyChunks (takeChunk len ls).2 := by
  induction ls generalizing ch cl len with
  | nil =>
    rw [chunk_loop, takeChunk]
    simp [greedyChunks, List.isEmpty_iff, hcl]
  | cons l ls ih =>
    rw [chunk_loop, takeChunk]
    dsimp only
    by_cases h : len + l.length > DISCORD_SPLIT_LIMIT
    · rw [if_pos h, if_pos h]
      rw [if_neg (by simpa [List.isEmpty_iff] using hcl)]
      dsimp only
      rw [ih (ch ++ [cl]) [l] l.length (by simp)]
      rw [greedyChunks]
      simp
    · rw [if_neg h, if_neg h]
      dsimp only
      rw [ih ch (cl ++ [l]) (len + l.length) (by simp)]
      simp

theorem chunk_loop_start (ls : List String) (ch : List (List String)) :
    chunk_loop ch [] 0 ls = ch ++ greedyChunks ls := by
  cases ls with
  | nil => simp [chunk_loop, greedyChunks]
  | cons l ls =>
    rw [chunk_loop]
    dsimp only
    by_cases h : 0 + l.length > DISCORD_SPLIT_LIMIT
    · rw [if_pos h]
      rw [if_pos (by simp)]
      rw [chunk_loop_eq_greedy ls ch [l] l.length (by simp)]
      rw [greedyChunks]
      simp
    · rw [if_neg h]
      rw [chunk_loop_eq_greedy ls ch ([] ++ [l]) (0 + l.length) (by simp)]
      rw [greedyChunks]
      simp

theorem send_message_lines_eq_greedy (message_lines : List String) :
    send_message_lines message_lines = greedyChunks (message_lines.map clip_line) := by
  rw [send_message_lines, send_go_eq_chunk_loop, chunk_loop_start]
  simp

theorem greedyChunks_flatten_aux :
    ∀ (n : Nat) (ls : List String), ls.length ≤ n → (greedyChunks ls).flatten = ls := by
  intro n
  induction n with
  | zero =>
    intro ls h
    have hnil : ls = [] := List.eq_nil_of_length_eq_zero (by omega)
    subst hnil
    simp [greedyChunks]
  | succ n ih =>
    intro ls h
    cases ls with
    | nil => simp [greedyChunks]
    | cons l t =>
      rw [greedyChunks, List.flatten_cons]
      have hlen : (takeChunk l.length t).2.length ≤ n :=
        le_trans (takeChunk_snd_length _ _) (by simpa using Nat.lt_succ_iff.mp h)
      rw [ih _ hlen]
      rw [List.cons_append, takeChunk_append]

theorem greedyChunks_flatten (ls : List String) : (greedyChunks ls).flatten = ls :=
  greedyChunks_flatten_aux ls.length ls le_rfl

theorem greedyChunks_ne_nil_aux :
    ∀ (n : Nat) (ls : List String), ls.length ≤ n → ∀ c ∈ greedyChunks ls, c ≠ [] := by
  intro n
  induction n with
  | zero =>
    intro ls h
    have hnil : ls = [] := List.eq_nil_of_length_eq_zero (by omega)
    subst hnil
    intro c hc
    simp [greedyChunks] at hc
  | succ n ih =>
    intro ls h
    cases ls with
    | nil => intro c hc; simp [greedyChunks] at hc
    | cons l t =>
      rw [greedyChunks]
      intro c hc
      rcases List.mem_cons.mp hc with rfl | hc'
      · simp
      · have hlen : (takeChunk l.length t).2.length ≤ n :=
          le_trans (takeChunk_snd_length _ _) (by simpa using Nat.lt_succ_iff.mp h)
        exact ih _ hlen c hc'

theorem greedyChunks_sum_le_aux :
    ∀ (n : Nat) (ls : List String), ls.length ≤ n →
      (∀ l ∈ ls, l.length ≤ DISCORD_SPLIT_LIMIT) →
      ∀ c ∈ greedyChunks ls, sumLen c ≤ DISCORD_SPLIT_LIMIT := by
  intro n
  induction n with
  | zero =>
    intro ls h _
    have hnil : ls = [] := List.eq_nil_of_length_eq_zero (by omega)
    subst hnil
    intro c hc
    simp [greedyChunks] at hc
  | succ n ih =>
    intro ls h hall
    cases ls with
    | nil => intro c hc; simp [greedyChunks] at hc
    | cons l t =>
      rw [greedyChunks]
      intro c hc
      rcases List.mem_cons.mp hc with rfl | hc'
      · rw [sumLen_cons]
        have hb := takeChunk_fst_bound t l.length (hall l (List.mem_cons_self _ _))
        omega
      · have hlen : (takeChunk l.length t).2.length ≤ n :=
          le_trans (takeChunk_snd_length _ _) (by simpa using Nat.lt_succ_iff.mp h)
        have hall' : ∀ l' ∈ (takeChunk l.length t).2, l'.length ≤ DISCORD_SPLIT_LIMIT := by
          intro l' hl'
          refine hall l' (List.mem_cons_of_mem _ ?_)
          rw [← takeChunk_append l.length t]
          exact List.mem_append.mpr (Or.inr hl')
        exact ih _ hlen hall' c hc'

theorem append_split {α : Type} (a : List α) :
    ∀ (b c d : List α), a ++ b = c ++ d → a.length ≤ c.length →
      ∃ e, c = a ++ e ∧ b = e ++ d := by
  induction a with
  | nil =>
    intro b c d h _
    exact ⟨c, rfl, by simpa using h⟩
  | cons x a ih =>
    intro b c d h hlen
    cases c with
    | nil => simp at hlen
    | cons y c =>
      rw [List.cons_append, List.cons_append] at h
      obtain ⟨hxy, h'⟩ := List.cons.inj h
      obtain ⟨e, hc, hb⟩ := ih b c d h' (by simpa using hlen)
      exact ⟨e, by rw [hxy, hc, List.cons_append], hb⟩

theorem chunking_restrict (P : List (List String)) :
    ∀ (d r : List String), P.flatten = d ++ r →
      (∀ c ∈ P, c ≠ [] ∧ sumLen c ≤ DISCORD_SPLIT_LIMIT) →
      ∃ Q : List (List String), Q.flatten = r ∧
        (∀ c ∈ Q, c ≠ [] ∧ sumLen c ≤ DISCORD_SPLIT_LIMIT) ∧
        Q.length ≤ P.length := by
  induction P with
  | nil =>
    intro d r h _
    have hr : r = [] := by
      rw [List.flatten_nil] at h
      exact (List.append_eq_nil.mp h.symm).2
    refine ⟨[], by simp [hr], ?_, le_rfl⟩
    intro c hc
    cases hc
  | cons g P ih =>
    intro d r h hval
    rw [List.flatten_cons] at h
    by_cases hlen : d.length ≤ g.length
    · obtain ⟨b, hg, hr⟩ := append_split d r g P.flatten h.symm hlen
      cases b with
      | nil =>
        refine ⟨P, ?_, fun c hc => hval c (List.mem_cons_of_mem _ hc), Nat.le_succ _⟩
        simpa using hr.symm
      | cons x xs =>
        refine ⟨(x :: xs) :: P, ?_, ?_, le_rfl⟩
        · rw [List.flatten_cons, hr]
        · intro c hc
          rcases List.mem_cons.mp hc with rfl | hc'
          · refine ⟨by simp, ?_⟩
            have hgs := (hval g (List.mem_cons_self _ _)).2
            rw [hg, sumLen_append] at hgs
            omega
          · exact hval c (List.mem_cons_of_mem _ hc')
    · obtain ⟨d', hd, hflat⟩ := append_split g P.flatten d r h (by omega)
      obtain ⟨Q, hQ1, hQ2, hQ3⟩ := ih d' r hflat (fun c hc => hval c (List.mem_cons_of_mem _ hc))
      exact ⟨Q, hQ1, hQ2, Nat.le_succ_of_le hQ3⟩

theorem greedyChunks_min_aux :
    ∀ (n : Nat) (ls : List String), ls.length ≤ n →
      ∀ P : List (List String), P.flatten = ls →
        (∀ c ∈ P, c ≠ [] ∧ sumLen c ≤ DISCORD_SPLIT_LIMIT) →
        (greedyChunks ls).length ≤ P.length := by
  intro n
  induction n with
  | zero =>
    intro ls h P _ _
    have hnil : ls = [] := List.eq_nil_of_length_eq_zero (by omega)
    subst hnil
    simp [greedyChunks]
  | succ n ih =>
    intro ls h P hflat hval
    cases ls with
    | nil => simp [greedyChunks]
    | cons l t =>
      cases P with
      | nil => simp at hflat
      | cons g P =>
        rw [List.flatten_cons] at hflat
        obtain ⟨hgne, hgsum⟩ := hval g (List.mem_cons_self _ _)
        cases g with
        | nil => exact absurd rfl hgne
        | cons x g1 =>
          rw [List.cons_append] at hflat
          obtain ⟨hxl, ht⟩ := List.cons.inj hflat
          subst hxl
          have hsum : x.length + sumLen g1 ≤ DISCORD_SPLIT_LIMIT := by
            rw [sumLen_cons] at hgsum
            exact hgsum
          rw [greedyChunks]
          rw [← ht, takeChunk_prefix g1 P.flatten x.length hsum]
          have hq := takeChunk_append (x.length + sumLen g1) P.flatten
          obtain ⟨Q, hQ1, hQ2, hQ3⟩ := chunking_restrict P
            (takeChunk (x.length + sumLen g1) P.flatten).1
            (takeChunk (x.length + sumLen g1) P.flatten).2
            hq.symm (fun c hc => hval c (List.mem_cons_of_mem _ hc))
          have hlen2 : (takeChunk (x.length + sumLen g1) P.flatten).2.length ≤ n := by
            have h1 := takeChunk_snd_length (x.length + sumLen g1) P.flatten
            have h2 : P.flatten.length ≤ t.length := by
              rw [← ht]
              simp
            have h3 : t.length ≤ n := by simpa using Nat.lt_succ_iff.mp h
            omega
          have hrec := ih _ hlen2 Q hQ1 hQ2
          simp only [List.length_cons]
          omega

theorem strMk_length (l : List Char) : (String.mk l).length = l.length := rfl

theorem pyRstrip_length_le (s : String) : (pyRstrip s).length ≤ s.length := by
  rw [pyRstrip, strMk_length]
  calc ((s.data.reverse.dropWhile isPySpace).reverse).length
      = (s.data.reverse.dropWhile isPySpace).length := by simp
    _ ≤ s.data.reverse.length := List.Sublist.length_le (List.dropWhile_sublist _)
    _ = s.length := by rw [List.length_reverse]; rfl

theorem clip_line_length_le (line : String) :
    (clip_line line).length ≤ DISCORD_SPLIT_LIMIT := by
  rw [clip_line]
  by_cases h : line.length > DISCORD_SPLIT_LIMIT
  · rw [if_pos h, String.length_append]
    have h1 : (pyRstrip (strTake line (DISCORD_SPLIT_LIMIT - 100))).length ≤
        DISCORD_SPLIT_LIMIT - 100 := by
      refine le_trans (pyRstrip_length_le _) ?_
      rw [strTake, strMk_length]
      exact List.length_take_le _ _
    have h2 : (" [...]" : String).length = 6 := rfl
    rw [h2]
    simp only [DISCORD_SPLIT_LIMIT] at h1 ⊢
    omega
  · rw [if_neg h]
    omega

/-- C7: the chunks delivered by `send_message_lines` each stay within the
2000-character limit, concatenate (in order) to the clipped input line
sequence, and are as few as any valid order-preserving chunking of that
sequence — the greedy flush-on-overflow rule is optimal. -/
theorem send_message_lines_chunking (message_lines : List String) :
    (∀ c ∈ send_message_lines message_lines,
      (String.join c).length ≤ DISCORD_SPLIT_LIMIT) ∧
    (send_message_lines message_lines).flatten = message_lines.map clip_line ∧
    (∀ chunks : List (List String), isChunking (message_lines.map clip_line) chunks →
      (send_message_lines message_lines).length ≤ chunks.length) := by
  have hall : ∀ l ∈ message_lines.map clip_line, l.length ≤ DISCORD_SPLIT_LIMIT := by
    intro l hl
    obtain ⟨x, -, rfl⟩ := List.mem_map.mp hl
    exact clip_line_length_le x
  refine ⟨?_, ?_, ?_⟩
  · intro c hc
    rw [string_join_length]
    rw [send_message_lines_eq_greedy] at hc
    exact greedyChunks_sum_le_aux (message_lines.map clip_line).length _ le_rfl hall c hc
  · rw [send_message_lines_eq_greedy, greedyChunks_flatten]
  · intro chunks hch
    obtain ⟨hflat, hval⟩ := hch
    rw [send_message_lines_eq_greedy]
    refine greedyChunks_min_aux (message_lines.map clip_line).length _ le_rfl chunks hflat ?_
    intro c hc
    obtain ⟨h1, h2⟩ := hval c hc
    refine ⟨h1, ?_⟩
    rw [← string_join_length]
    exact h2

theorem send_message_lines_chunking_witness :
    (String.join ["a", "b"]).length ≤ DISCORD_SPLIT_LIMIT ∧
    (send_message_lines ["a", "b"]).flatten = ["a", "b"].map clip_line ∧
    (send_message_lines ["a", "b"]).length ≤ ([["a"], ["b"]] : List (List String)).length := by
  refine ⟨(send_message_lines_chunking ["a", "b"]).1 ["a", "b"] (by decide),
    (send_message_lines_chunking ["a", "b"]).2.1,
    (send_message_lines_chunking ["a", "b"]).2.2 [["a"], ["b"]] ⟨by decide, by decide⟩⟩

/-- C8: a line longer than 2000 characters is replaced by its first 1900
characters, right-stripped, plus the marker `" [...]"`; the result is at most
2000 characters, ends in the marker, and alone yields a single chunk. -/
theorem clip_line_truncates (line : String) (h : line.length > DISCORD_SPLIT_LIMIT) :
    clip_line line = pyRstrip (strTake line (DISCORD_SPLIT_LIMIT - 100)) ++ " [...]" ∧
    (clip_line line).length ≤ DISCORD_SPLIT_LIMIT ∧
    (∃ p, clip_line line = p ++ " [...]") ∧
    send_message_lines [line] = [[clip_line line]] := by
  refine ⟨by rw [clip_line, if_pos h], clip_line_length_le line,
    ⟨_, by rw [clip_line, if_pos h]⟩, ?_⟩
  rw [send_message_lines, send_message_lines_go]
  dsimp only
  rw [if_neg (by have := clip_line_length_le line; omega)]
  rw [send_message_lines_go]
  simp

theorem clip_line_truncates_witness :
    (String.mk (List.replicate 2500 'a')).length > DISCORD_SPLIT_LIMIT ∧
    (clip_line (String.mk (List.replicate 2500 'a'))).length ≤ DISCORD_SPLIT_LIMIT ∧
    send_message_lines [String.mk (List.replicate 2500 'a')] =
      [[clip_line (String.mk (List.replicate 2500 'a'))]] := by
  have h : (String.mk (List.replicate 2500 'a')).length > DISCORD_SPLIT_LIMIT := by
    rw [strMk_length]
    simp [DISCORD_SPLIT_LIMIT]
  exact ⟨h, (clip_line_truncates _ h).2.1, (clip_line_truncates _ h).2.2.2⟩

/-- C10: every chunk `send_message_lines` delivers holds at least one line,
and an empty line list produces no delivery at all. -/
theorem send_message_lines_no_empty_chunk (message_lines : List String) :
    (∀ c ∈ send_message_lines message_lines, c ≠ []) ∧
    send_message_lines [] = [] := by
  constructor
  · rw [send_message_lines_eq_greedy]
    intro c hc
    exact greedyChunks_ne_nil_aux (message_lines.map clip_line).length _ le_rfl c hc
  · rfl

theorem send_message_lines_no_empty_chunk_witness :
    (["a", "b"] : List String) ≠ [] ∧ send_message_lines [] = [] :=
  ⟨(send_message_lines_no_empty_chunk ["a", "b"]).1 ["a", "b"] (by decide),
    (send_message_lines_no_empty_chunk []).2⟩

end ChangelogScript
